import Mathlib

/-!
# Verification of the bounded directory-tree scanner
  (`src/app/api/folder-structure/route.ts`)

This file gives a shallow embedding of the repository's core:

* `scanDirectory` — the bounded, depth-recursive scanner;
* `POST` — the request handler (path validation, allow-list check,
  stat check, limit clamping, scan, response assembly);
* `countNodes` — the pre-order node counter.

The filesystem is modelled by the inductive type `FSEntry`: a directory
carries a `readable` flag (`false` models a directory whose `readdir`
call fails) together with its listing.  `localeCompare` is modelled by
an abstract comparison function `cmp : String → String → Int`, and the
platform path separator used by `path.join` is an abstract `sep`
(`"/"` on POSIX, `"\\"` on Windows).  JavaScript values arriving from
`request.json()` are modelled by `JSVal`, string prefix testing
(`String.prototype.startsWith`) by `strStartsWith`, and `parseInt` by
`jsParseInt`.
-/

/-- A filesystem entry as seen through `fs.readdir(..., { withFileTypes: true })`.
A `dir` carries `readable := false` when listing it fails (permissions, race);
its `entries` field is then irrelevant (the scanner never obtains it). -/
inductive FSEntry where
  | file (name : String)
  | dir (name : String) (readable : Bool) (entries : List FSEntry)

/-- The base name of an entry (`item.name` on a `Dirent`). -/
def FSEntry.name : FSEntry → String
  | .file n => n
  | .dir n _ _ => n

/-- `'file' | 'folder'`, the `type` field of the result nodes. -/
inductive NodeType where
  | file
  | folder
deriving DecidableEq

/-- The `FileNode` interface of the route:
`{ name, path, type, children?, truncated?, totalCount? }`.
Optional fields are `Option`s; `none` models an absent field. -/
inductive FileNode where
  | mk (name : String) (path : String) (type : NodeType)
       (children : Option (List FileNode)) (truncated : Option Bool)
       (totalCount : Option Nat)

def FileNode.name : FileNode → String
  | .mk n _ _ _ _ _ => n

def FileNode.path : FileNode → String
  | .mk _ p _ _ _ _ => p

def FileNode.type : FileNode → NodeType
  | .mk _ _ t _ _ _ => t

def FileNode.children : FileNode → Option (List FileNode)
  | .mk _ _ _ c _ _ => c

def FileNode.truncated : FileNode → Option Bool
  | .mk _ _ _ _ tr _ => tr

def FileNode.totalCount : FileNode → Option Nat
  | .mk _ _ _ _ _ tc => tc

/-- Model of JavaScript `String.prototype.startsWith` (and of Lean/Node
`startsWith` on the strings involved): code-unit prefix test. -/
def strStartsWith (s pre : String) : Bool :=
  pre.toList.isPrefixOf s.toList

/-- The entry filter of `scanDirectory`'s first pass: skip hidden entries
(name starts with `'.'`), `node_modules` and `.git`. -/
def keepName (nm : String) : Bool :=
  !(strStartsWith nm "." || nm == "node_modules" || nm == ".git")

/-- The filter applied to a directory entry (the source tests `item.name`). -/
def keep (e : FSEntry) : Bool :=
  keepName e.name

/-- `basePath ? path.join(basePath, item.name) : item.name` for plain segment
names: `path.join` degenerates to concatenation with the platform separator. -/
def joinPath (sep basePath nm : String) : String :=
  if basePath = "" then nm else basePath ++ sep ++ nm

/-- The comparator passed to `allItems.sort`: folders before files, otherwise
`a.name.localeCompare(b.name)` (the abstract `cmp`). -/
def nodeCompare (cmp : String → String → Int) (a b : FileNode) : Int :=
  if a.type = NodeType.folder ∧ b.type = NodeType.file then -1
  else if a.type = NodeType.file ∧ b.type = NodeType.folder then 1
  else cmp a.name b.name

/-- The "comes no later than" relation induced by the sort comparator. -/
def nodeLe (cmp : String → String → Int) (a b : FileNode) : Prop :=
  nodeCompare cmp a b ≤ 0

instance (cmp : String → String → Int) : DecidableRel (nodeLe cmp) :=
  fun a b => inferInstanceAs (Decidable (nodeCompare cmp a b ≤ 0))

/-- The truncation indicator pushed when the per-level limit is hit:
`{ name: '...', path: basePath + '...', type: 'folder', truncated: true,
totalCount: allItems.length }`.  Note the path concatenates `'...'` directly
onto `basePath` with no separator. -/
def truncNode (basePath : String) (total : Nat) : FileNode :=
  FileNode.mk "..." (basePath ++ "...") NodeType.folder none (some true) (some total)

/-- The emission loop of `scanDirectory` (lines 55–100): walk the sorted
items, push one node per item, and after each push check
`nodes.length >= fileLimit && i < allItems.length - 1`; when it fires, pop
the just-pushed node, push the truncation indicator and break.  Here
`emitted` is the number of nodes already pushed before the current item
(so `nodes.length` after the push is `emitted + 1`), and
`rest.isEmpty = false` is `i < allItems.length - 1`. -/
def emitNodes (basePath : String) (total limit : Nat) : Nat → List FileNode → List FileNode
  | _, [] => []
  | emitted, n :: rest =>
    if limit ≤ emitted + 1 ∧ rest.isEmpty = false then [truncNode basePath total]
    else n :: emitNodes basePath total limit (emitted + 1) rest

mutual

/-- The node built for one sorted item in the emission loop.  A file becomes
a leaf; a folder recurses with the same limit (the recursive call never
throws — see `scanDirectory`'s catch-all — so the inner `catch` branch of
the source is unreachable) and the children field is present only when at
least one child survived (`children.length > 0 ? children : undefined`). -/
def entryNode (cmp : String → String → Int) (sep : String) (limit : Nat)
    (basePath : String) (e : FSEntry) : FileNode :=
  match e with
  | .file n => FileNode.mk n (joinPath sep basePath n) NodeType.file none none none
  | .dir n r cs =>
      FileNode.mk n (joinPath sep basePath n) NodeType.folder
        (if 0 < (scanDirectory cmp sep r cs (joinPath sep basePath n) limit).length
         then some (scanDirectory cmp sep r cs (joinPath sep basePath n) limit)
         else none)
        none none
termination_by sizeOf e

/-- `scanDirectory(dirPath, basePath, fileLimit)`.  The directory at
`dirPath` is given by its listing outcome: `r = false` models a failing
`fs.readdir` (the outer `try`/`catch` then returns `[]`), `entries` its
listing otherwise.  On success the listing is filtered, sorted with the
folders-first comparator (a stable sort, as `Array.prototype.sort` is),
and fed to the emission loop; the truncation indicator's `totalCount` is
`allItems.length`, the number of *filtered* entries.  (Building each
item's node before sorting is equivalent to the source's sort-then-build
order: the recursive calls are pure and the stable sort only inspects
`type` and `name`, which `entryNode` preserves.) -/
def scanDirectory (cmp : String → String → Int) (sep : String) (r : Bool)
    (entries : List FSEntry) (basePath : String) (limit : Nat) : List FileNode :=
  if r then
    emitNodes basePath ((entries.filter keep).length) limit 0
      (List.insertionSort (nodeLe cmp)
        ((entries.filter keep).attach.map
          (fun e => entryNode cmp sep limit basePath e.1)))
  else []
termination_by sizeOf entries
decreasing_by
  have h1 : e.1 ∈ entries.filter keep := e.2
  have h2 := List.sizeOf_lt_of_mem (List.mem_of_mem_filter h1)
  simp_wf
  omega

end

/-- `countNodes`: pre-order count of every node, recursing into a `children`
field whenever it is present. -/
def countNodes : List FileNode → Nat
  | [] => 0
  | FileNode.mk _ _ _ (some cs) _ _ :: rest => 1 + countNodes cs + countNodes rest
  | FileNode.mk _ _ _ none _ _ :: rest => 1 + countNodes rest

/-- A JSON value as destructured from `request.json()`; `absent` models a
missing field (JavaScript `undefined`).  JSON numbers are modelled as
integers (the relevant inputs are integral). -/
inductive JSVal where
  | num (n : Int)
  | str (s : String)
  | absent

/-- JavaScript whitespace skipped by `parseInt` (the common characters). -/
def isWS (c : Char) : Bool :=
  c = ' ' || c = '\t' || c = '\n' || c = '\r'

/-- Value of a digit character, hex digits allowed when `hex` is set. -/
def digitValue (hex : Bool) (c : Char) : Option Nat :=
  if '0' ≤ c ∧ c ≤ '9' then some (c.toNat - 48)
  else if hex ∧ 'a' ≤ c ∧ c ≤ 'f' then some (c.toNat - 87)
  else if hex ∧ 'A' ≤ c ∧ c ≤ 'F' then some (c.toNat - 55)
  else none

/-- Longest leading run of digits, as digit values. -/
def takeDigits (hex : Bool) : List Char → List Nat
  | [] => []
  | c :: cs =>
    match digitValue hex c with
    | some d => d :: takeDigits hex cs
    | none => []

/-- Fold digit values into a number. -/
def digitsToNat (base : Nat) : Nat → List Nat → Nat
  | acc, [] => acc
  | acc, d :: ds => digitsToNat base (acc * base + d) ds

/-- Model of `parseInt(s)` with no radix argument: skip leading whitespace,
optional sign, optional `0x`/`0X` hex prefix, then the longest digit run;
`none` models `NaN`. -/
def jsParseInt (s : String) : Option Int :=
  let cs := s.toList.dropWhile isWS
  let signed : Int × List Char :=
    match cs with
    | '-' :: rest => (-1, rest)
    | '+' :: rest => (1, rest)
    | _ => (1, cs)
  let based : Bool × List Char :=
    match signed.2 with
    | '0' :: 'x' :: rest => (true, rest)
    | '0' :: 'X' :: rest => (true, rest)
    | _ => (false, signed.2)
  let ds := takeDigits based.1 based.2
  if ds.isEmpty then none
  else some (signed.1 * (digitsToNat (if based.1 then 16 else 10) 0 ds))

/-- The handler's limit validation:
`const { fileLimit = 20 } = ...` followed by
`Math.max(1, Math.min(100, parseInt(fileLimit) || 20))`.
`parseInt` of a number is the number itself (for the integral values
modelled here); `NaN` **and** `0` are falsy, so both fall back to `20`. -/
def appliedFileLimit (v : JSVal) : Int :=
  let fl : JSVal := match v with
    | JSVal.absent => JSVal.num 20
    | x => x
  let parsed : Option Int := match fl with
    | JSVal.num n => some n
    | JSVal.str s => jsParseInt s
    | JSVal.absent => some 20
  let orDefault : Int := match parsed with
    | none => 20
    | some n => if n = 0 then 20 else n
  max 1 (min 100 orDefault)

/-- Result of `fs.stat` on the resolved path, as far as the handler looks. -/
inductive StatResult where
  | missing
  | file
  | directory

/-- The handler's outcome: one failure constructor per error response
(400 "Path is required", 403, 404, 400 "Path must be a directory"), and
`ok` carrying exactly the success payload
`{ structure, path, count, fileLimit }`.  No failure carries a tree. -/
inductive ScanOutcome where
  | invalidInput
  | accessDenied
  | notFound
  | notADirectory
  | ok (tree : List FileNode) (path : String) (count : Nat) (fileLimit : Int)

/-- The POSIX branch of the security check: the resolved path must start
with the working directory, `/tmp`, `/home`, `/Users` or `/var/tmp`. -/
def isAllowedPosix (cwd resolvedPath : String) : Bool :=
  strStartsWith resolvedPath cwd ||
  strStartsWith resolvedPath "/tmp" ||
  strStartsWith resolvedPath "/home" ||
  strStartsWith resolvedPath "/Users" ||
  strStartsWith resolvedPath "/var/tmp"

/-- The `POST` handler on a POSIX-style platform.  `resolve` abstracts the
`path.resolve`-based canonicalisation (all three branches of the source end
in a resolved absolute path); `stat` abstracts `fs.stat` on the resolved
path; `rootReadable`/`rootEntries` give the listing outcome of the resolved
directory for the scan.  `requestedPath = none` models a missing `path`
field; the source's `if (!requestedPath)` also fires on the empty string. -/
def POST (cmp : String → String → Int) (sep : String) (cwd : String)
    (resolve : String → String) (stat : String → StatResult)
    (rootReadable : Bool) (rootEntries : List FSEntry)
    (requestedPath : Option String) (fileLimit : JSVal) : ScanOutcome :=
  match requestedPath with
  | none => ScanOutcome.invalidInput
  | some p =>
    if p = "" then ScanOutcome.invalidInput
    else
      let limit := appliedFileLimit fileLimit
      let resolvedPath := resolve p
      if isAllowedPosix cwd resolvedPath = false then ScanOutcome.accessDenied
      else
        match stat resolvedPath with
        | StatResult.missing => ScanOutcome.notFound
        | StatResult.file => ScanOutcome.notADirectory
        | StatResult.directory =>
          ScanOutcome.ok (scanDirectory cmp sep rootReadable rootEntries "" limit.toNat)
            resolvedPath
            (countNodes (scanDirectory cmp sep rootReadable rootEntries "" limit.toNat))
            limit

/-- Pre-order traversal pairing every node of a tree with the `basePath`
prefix of the level it was emitted at (the recursion passes `item.path`,
i.e. the node's own `path`, as the children's base path). -/
def withParents (parent : String) : List FileNode → List (String × FileNode)
  | [] => []
  | FileNode.mk nm p t (some cs) tr tc :: rest =>
      (parent, FileNode.mk nm p t (some cs) tr tc) ::
        (withParents p cs ++ withParents parent rest)
  | FileNode.mk nm p t none tr tc :: rest =>
      (parent, FileNode.mk nm p t none tr tc) :: withParents parent rest

/-- Pre-order traversal pairing every node with the chain of ancestor names
(scan-root-relative segments) leading to its level. -/
def withSegs (segs : List String) : List FileNode → List (List String × FileNode)
  | [] => []
  | FileNode.mk nm p t (some cs) tr tc :: rest =>
      (segs, FileNode.mk nm p t (some cs) tr tc) ::
        (withSegs (segs ++ [nm]) cs ++ withSegs segs rest)
  | FileNode.mk nm p t none tr tc :: rest =>
      (segs, FileNode.mk nm p t none tr tc) :: withSegs segs rest

/-- Segments joined with a separator (no leading or trailing separator). -/
def joinSegs (sep : String) : List String → String
  | [] => ""
  | [s] => s
  | s :: rest => s ++ sep ++ joinSegs sep rest

/-- Real directory listings produce nonempty base names; this predicate
records that side condition on a modelled filesystem. -/
inductive GoodNames : FSEntry → Prop where
  | file (n : String) : n ≠ "" → GoodNames (FSEntry.file n)
  | dir (n : String) (r : Bool) (cs : List FSEntry) :
      n ≠ "" → (∀ e ∈ cs, GoodNames e) → GoodNames (FSEntry.dir n r cs)

/-- Per-node facts established for every node the scanner emits, relative to
the base path `p` of the level it was emitted at: a node is either a real
entry node (not truncated, surviving the name filter, `path` obtained by
`path.join`) or the truncation indicator (name `'...'`, folder type, no
children, `path` concatenated without separator); and any `children` field
is itself a scanner output rooted at the node's `path`. -/
def NodeFact (cmp : String → String → Int) (sep : String) (limit : Nat)
    (p : String) (n : FileNode) : Prop :=
  ((n.truncated = none ∧ keepName n.name = true ∧ n.path = joinPath sep p n.name) ∨
   (n.truncated = some true ∧ n.name = "..." ∧ n.type = NodeType.folder ∧
    n.children = none ∧ n.path = p ++ "...")) ∧
  (∀ cs, n.children = some cs →
    ∃ es r, cs = scanDirectory cmp sep r es n.path limit)

/-- A concrete stand-in comparator for closed instances (a consistent
comparator under which every pair of names ties, so the stable sort
preserves listing order). -/
def cmp0 : String → String → Int := fun _ _ => 0

/-! ## Basic lemmas -/

@[simp] theorem FileNode.name_mk (n p : String) (t : NodeType)
    (c : Option (List FileNode)) (tr : Option Bool) (tc : Option Nat) :
    (FileNode.mk n p t c tr tc).name = n := rfl

@[simp] theorem FileNode.path_mk (n p : String) (t : NodeType)
    (c : Option (List FileNode)) (tr : Option Bool) (tc : Option Nat) :
    (FileNode.mk n p t c tr tc).path = p := rfl

@[simp] theorem FileNode.type_mk (n p : String) (t : NodeType)
    (c : Option (List FileNode)) (tr : Option Bool) (tc : Option Nat) :
    (FileNode.mk n p t c tr tc).type = t := rfl

@[simp] theorem FileNode.children_mk (n p : String) (t : NodeType)
    (c : Option (List FileNode)) (tr : Option Bool) (tc : Option Nat) :
    (FileNode.mk n p t c tr tc).children = c := rfl

@[simp] theorem FileNode.truncated_mk (n p : String) (t : NodeType)
    (c : Option (List FileNode)) (tr : Option Bool) (tc : Option Nat) :
    (FileNode.mk n p t c tr tc).truncated = tr := rfl

@[simp] theorem FileNode.totalCount_mk (n p : String) (t : NodeType)
    (c : Option (List FileNode)) (tr : Option Bool) (tc : Option Nat) :
    (FileNode.mk n p t c tr tc).totalCount = tc := rfl

theorem scanDirectory_false (cmp : String → String → Int) (sep : String)
    (entries : List FSEntry) (bp : String) (limit : Nat) :
    scanDirectory cmp sep false entries bp limit = [] := by
  rw [scanDirectory]
  simp

theorem scanDirectory_true (cmp : String → String → Int) (sep : String)
    (entries : List FSEntry) (bp : String) (limit : Nat) :
    scanDirectory cmp sep true entries bp limit =
      emitNodes bp ((entries.filter keep).length) limit 0
        (List.insertionSort (nodeLe cmp)
          ((entries.filter keep).map (entryNode cmp sep limit bp))) := by
  rw [scanDirectory, List.attach_map_val]
  simp

theorem entryNode_file (cmp : String → String → Int) (sep : String) (limit : Nat)
    (bp n : String) :
    entryNode cmp sep limit bp (FSEntry.file n) =
      FileNode.mk n (joinPath sep bp n) NodeType.file none none none := by
  rw [entryNode]

theorem entryNode_dir (cmp : String → String → Int) (sep : String) (limit : Nat)
    (bp n : String) (r : Bool) (cs : List FSEntry) :
    entryNode cmp sep limit bp (FSEntry.dir n r cs) =
      FileNode.mk n (joinPath sep bp n) NodeType.folder
        (if 0 < (scanDirectory cmp sep r cs (joinPath sep bp n) limit).length
         then some (scanDirectory cmp sep r cs (joinPath sep bp n) limit)
         else none)
        none none := by
  rw [entryNode]

theorem entryNode_truncated (cmp : String → String → Int) (sep : String)
    (limit : Nat) (bp : String) (e : FSEntry) :
    (entryNode cmp sep limit bp e).truncated = none := by
  cases e with
  | file n => rw [entryNode_file]; rfl
  | dir n r cs => rw [entryNode_dir]; rfl

theorem entryNode_name (cmp : String → String → Int) (sep : String)
    (limit : Nat) (bp : String) (e : FSEntry) :
    (entryNode cmp sep limit bp e).name = e.name := by
  cases e with
  | file n => rw [entryNode_file]; rfl
  | dir n r cs => rw [entryNode_dir]; rfl

theorem entryNode_path (cmp : String → String → Int) (sep : String)
    (limit : Nat) (bp : String) (e : FSEntry) :
    (entryNode cmp sep limit bp e).path = joinPath sep bp e.name := by
  cases e with
  | file n => rw [entryNode_file]; rfl
  | dir n r cs => rw [entryNode_dir]; rfl

/-- If the per-level budget cannot be exhausted before the items run out,
the emission loop is the identity: no truncation happens. -/
theorem emitNodes_of_le (bp : String) (total limit : Nat) :
    ∀ (items : List FileNode) (emitted : Nat), emitted + items.length ≤ limit →
      emitNodes bp total limit emitted items = items := by
  intro items
  induction items with
  | nil => intro emitted _; rw [emitNodes]
  | cons n rest ih =>
    intro emitted h
    rw [emitNodes]
    have hrest : emitted + 1 + rest.length ≤ limit := by
      simp only [List.length_cons] at h
      omega
    cases rest with
    | nil =>
      simp only [List.isEmpty_nil, Bool.true_eq_false, and_false, if_false]
      rw [emitNodes]
    | cons m tl =>
      have hcond : ¬ (limit ≤ emitted + 1 ∧ (m :: tl).isEmpty = false) := by
        intro hc
        simp only [List.length_cons] at hrest
        omega
      rw [if_neg hcond, ih (emitted + 1) hrest]

/-- If the budget runs out strictly before the items do, the emission loop
keeps a prefix and replaces the node at the boundary by the truncation
indicator, producing exactly `limit - emitted` nodes. -/
theorem emitNodes_of_lt (bp : String) (total limit : Nat) :
    ∀ (items : List FileNode) (emitted : Nat), emitted < limit →
      limit < emitted + items.length →
      emitNodes bp total limit emitted items =
        items.take (limit - emitted - 1) ++ [truncNode bp total] := by
  intro items
  induction items with
  | nil =>
    intro emitted h1 h2
    simp only [List.length_nil] at h2
    omega
  | cons n rest ih =>
    intro emitted h1 h2
    rw [emitNodes]
    cases rest with
    | nil =>
      simp only [List.length_cons, List.length_nil] at h2
      omega
    | cons m tl =>
      by_cases hc : limit ≤ emitted + 1
      · have : limit - emitted - 1 = 0 := by omega
        rw [if_pos ⟨hc, by simp⟩, this]
        simp
      · have hcond : ¬ (limit ≤ emitted + 1 ∧ (m :: tl).isEmpty = false) := by
          intro hx; exact hc hx.1
        rw [if_neg hcond]
        have h2' : limit < emitted + 1 + (m :: tl).length := by
          simp only [List.length_cons] at h2 ⊢
          omega
        rw [ih (emitted + 1) (by omega) h2']
        have hk : limit - emitted - 1 = (limit - (emitted + 1) - 1) + 1 := by omega
        rw [hk, List.take_succ_cons]
        simp

/-- Everything the emission loop emits is an input item or the truncation
indicator. -/
theorem emitNodes_mem (bp : String) (total limit : Nat) :
    ∀ (items : List FileNode) (emitted : Nat) (n : FileNode),
      n ∈ emitNodes bp total limit emitted items →
      n ∈ items ∨ n = truncNode bp total := by
  intro items
  induction items with
  | nil => intro emitted n h; rw [emitNodes] at h; simp at h
  | cons x rest ih =>
    intro emitted n h
    rw [emitNodes] at h
    by_cases hc : limit ≤ emitted + 1 ∧ rest.isEmpty = false
    · rw [if_pos hc] at h
      simp only [List.mem_singleton] at h
      exact Or.inr h
    · rw [if_neg hc] at h
      rcases List.mem_cons.mp h with h | h
      · exact Or.inl (List.mem_cons.mpr (Or.inl h))
      · rcases ih (emitted + 1) n h with h | h
        · exact Or.inl (List.mem_cons.mpr (Or.inr h))
        · exact Or.inr h

/-- Members of a scan: either the image of a surviving entry under
`entryNode`, or the truncation indicator of this level. -/
theorem scanDirectory_mem (cmp : String → String → Int) (sep : String)
    (r : Bool) (entries : List FSEntry) (bp : String) (limit : Nat)
    (n : FileNode) (h : n ∈ scanDirectory cmp sep r entries bp limit) :
    (∃ e ∈ entries.filter keep, n = entryNode cmp sep limit bp e) ∨
      n = truncNode bp (entries.filter keep).length := by
  cases r with
  | false => rw [scanDirectory_false] at h; simp at h
  | true =>
    rw [scanDirectory_true] at h
    rcases emitNodes_mem _ _ _ _ _ _ h with h | h
    · have h2 : n ∈ (entries.filter keep).map (entryNode cmp sep limit bp) :=
        (List.perm_insertionSort (nodeLe cmp) _).mem_iff.mp h
      rcases List.mem_map.mp h2 with ⟨e, he, hn⟩
      exact Or.inl ⟨e, he, hn.symm⟩
    · exact Or.inr h

theorem withParents_mem :
    ∀ (l : List FileNode) (parent : String) (x : String × FileNode),
      x ∈ withParents parent l →
      (∃ n ∈ l, x = (parent, n)) ∨
      (∃ n ∈ l, ∃ cs, n.children = some cs ∧ x ∈ withParents n.path cs) := by
  intro l
  induction l with
  | nil => intro parent x h; rw [withParents] at h; simp at h
  | cons hd tl ih =>
    intro parent x h
    cases hd with
    | mk nm p t ch tr tc =>
      cases ch with
      | some cs =>
        rw [withParents] at h
        rcases List.mem_cons.mp h with h | h
        · exact Or.inl ⟨_, List.mem_cons_self _ _, h⟩
        · rcases List.mem_append.mp h with h | h
          · refine Or.inr ⟨FileNode.mk nm p t (some cs) tr tc,
              List.mem_cons_self _ _, cs, rfl, ?_⟩
            simpa using h
          · rcases ih parent x h with ⟨n, hn, hx⟩ | ⟨n, hn, cs', hcs, hx⟩
            · exact Or.inl ⟨n, List.mem_cons.mpr (Or.inr hn), hx⟩
            · exact Or.inr ⟨n, List.mem_cons.mpr (Or.inr hn), cs', hcs, hx⟩
      | none =>
        rw [withParents] at h
        rcases List.mem_cons.mp h with h | h
        · exact Or.inl ⟨_, List.mem_cons_self _ _, h⟩
        · rcases ih parent x h with ⟨n, hn, hx⟩ | ⟨n, hn, cs', hcs, hx⟩
          · exact Or.inl ⟨n, List.mem_cons.mpr (Or.inr hn), hx⟩
          · exact Or.inr ⟨n, List.mem_cons.mpr (Or.inr hn), cs', hcs, hx⟩

theorem fsentry_list_sizeOf_pos (l : List FSEntry) : 0 < sizeOf l := by
  cases l <;> simp

/-- Master invariant: every node of a scan, paired with the base path of
its level, satisfies `NodeFact`. -/
theorem scan_nodeFact (cmp : String → String → Int) (sep : String) (limit : Nat) :
    ∀ (k : Nat) (entries : List FSEntry) (r : Bool) (bp : String),
      sizeOf entries ≤ k →
      ∀ pn ∈ withParents bp (scanDirectory cmp sep r entries bp limit),
        NodeFact cmp sep limit pn.1 pn.2 := by
  intro k
  induction k with
  | zero =>
    intro entries r bp h
    have := fsentry_list_sizeOf_pos entries
    omega
  | succ k ih =>
    intro entries r bp hk pn hpn
    rcases withParents_mem _ _ _ hpn with ⟨n, hn, hx⟩ | ⟨n, hn, cs, hcs, hx⟩
    · -- pn is (bp, n) for a node n of this level
      subst hx
      rcases scanDirectory_mem cmp sep r entries bp limit n hn with ⟨e, he, hne⟩ | hne
      · subst hne
        constructor
        · left
          refine ⟨entryNode_truncated cmp sep limit bp e, ?_, ?_⟩
          · rw [entryNode_name]
            exact (List.mem_filter.mp he).2
          · rw [entryNode_path, entryNode_name]
        · intro cs hcs
          cases e with
          | file n =>
            rw [entryNode_file] at hcs
            simp at hcs
          | dir nm r' sub =>
            rw [entryNode_dir] at hcs
            simp only [FileNode.children_mk] at hcs
            by_cases hlen :
                0 < (scanDirectory cmp sep r' sub (joinPath sep bp nm) limit).length
            · rw [if_pos hlen] at hcs
              refine ⟨sub, r', ?_⟩
              rw [entryNode_dir, FileNode.path_mk]
              exact (Option.some.inj hcs).symm
            · rw [if_neg hlen] at hcs
              simp at hcs
      · subst hne
        constructor
        · right
          exact ⟨rfl, rfl, rfl, rfl, rfl⟩
        · intro cs hcs
          simp [truncNode] at hcs
    · -- pn lies below a node n of this level
      rcases scanDirectory_mem cmp sep r entries bp limit n hn with ⟨e, he, hne⟩ | hne
      · subst hne
        cases e with
        | file n =>
          rw [entryNode_file] at hcs
          simp at hcs
        | dir nm r' sub =>
          rw [entryNode_dir] at hcs
          simp only [FileNode.children_mk] at hcs
          by_cases hlen :
              0 < (scanDirectory cmp sep r' sub (joinPath sep bp nm) limit).length
          · rw [if_pos hlen] at hcs
            have hcs' := (Option.some.inj hcs).symm
            rw [entryNode_dir, FileNode.path_mk] at hx
            subst hcs'
            have hsz : sizeOf sub ≤ k := by
              have h1 := List.sizeOf_lt_of_mem (List.mem_of_mem_filter he)
              have h2 : sizeOf sub < sizeOf (FSEntry.dir nm r' sub) := by
                simp
              omega
            exact ih sub r' (joinPath sep bp nm) hsz pn hx
          · rw [if_neg hlen] at hcs
            simp at hcs
      · subst hne
        simp [truncNode] at hcs

theorem nodeLe_total (cmp : String → String → Int)
    (htot : ∀ a b, cmp a b ≤ 0 ∨ cmp b a ≤ 0) (a b : FileNode) :
    nodeLe cmp a b ∨ nodeLe cmp b a := by
  unfold nodeLe nodeCompare
  cases ha : a.type <;> cases hb : b.type <;> simp [ha, hb] <;>
    first
      | exact htot a.name b.name
      | omega

theorem nodeLe_trans (cmp : String → String → Int)
    (htrans : ∀ a b c, cmp a b ≤ 0 → cmp b c ≤ 0 → cmp a c ≤ 0)
    (a b c : FileNode) (h1 : nodeLe cmp a b) (h2 : nodeLe cmp b c) :
    nodeLe cmp a c := by
  unfold nodeLe nodeCompare at h1 h2 ⊢
  cases ha : a.type <;> cases hb : b.type <;> cases hc : c.type <;>
    simp [ha, hb, hc] at h1 h2 ⊢ <;>
    first
      | exact htrans a.name b.name c.name h1 h2
      | omega

/-- The emission loop either passes the items through or keeps a prefix
followed by the truncation indicator. -/
theorem emitNodes_shape (bp : String) (total limit : Nat) :
    ∀ (items : List FileNode) (emitted : Nat),
      emitNodes bp total limit emitted items = items ∨
      ∃ j, emitNodes bp total limit emitted items =
        items.take j ++ [truncNode bp total] := by
  intro items
  induction items with
  | nil => intro emitted; left; rw [emitNodes]
  | cons x rest ih =>
    intro emitted
    rw [emitNodes]
    by_cases hc : limit ≤ emitted + 1 ∧ rest.isEmpty = false
    · right
      exact ⟨0, by rw [if_pos hc]; simp⟩
    · rw [if_neg hc]
      rcases ih (emitted + 1) with h | ⟨j, h⟩
      · left; rw [h]
      · right; exact ⟨j + 1, by rw [h, List.take_succ_cons]; rfl⟩

/-- The non-sentinel part of every scan output is sorted by the comparator
relation, provided the name comparison is consistent (total and
transitive), as `localeCompare` is. -/
theorem scan_filter_sorted (cmp : String → String → Int) (sep : String)
    (htot : ∀ a b, cmp a b ≤ 0 ∨ cmp b a ≤ 0)
    (htrans : ∀ a b c, cmp a b ≤ 0 → cmp b c ≤ 0 → cmp a c ≤ 0)
    (r : Bool) (entries : List FSEntry) (bp : String) (limit : Nat) :
    List.Pairwise (nodeLe cmp)
      ((scanDirectory cmp sep r entries bp limit).filter
        (fun n => n.truncated.isNone)) := by
  haveI : IsTotal FileNode (nodeLe cmp) := ⟨nodeLe_total cmp htot⟩
  haveI : IsTrans FileNode (nodeLe cmp) := ⟨fun a b c => nodeLe_trans cmp htrans a b c⟩
  cases r with
  | false => rw [scanDirectory_false]; simp
  | true =>
    rw [scanDirectory_true]
    have hsorted : List.Pairwise (nodeLe cmp)
        (List.insertionSort (nodeLe cmp)
          ((entries.filter keep).map (entryNode cmp sep limit bp))) :=
      List.sorted_insertionSort (nodeLe cmp) _
    rcases emitNodes_shape bp ((entries.filter keep).length) limit _ 0 with h | ⟨j, h⟩
    · rw [h]
      exact List.Pairwise.sublist (List.filter_sublist _) hsorted
    · rw [h, List.filter_append]
      have htr : ([truncNode bp ((entries.filter keep).length)].filter
          (fun n => n.truncated.isNone)) = [] := by
        simp [truncNode]
      rw [htr, List.append_nil]
      exact List.Pairwise.sublist
        ((List.filter_sublist _).trans (List.take_sublist _ _)) hsorted

theorem str_append_ne_empty (a b : String) (h : a ≠ "") : a ++ b ≠ "" := by
  intro he
  apply h
  have hd : a.data ++ b.data = ([] : List Char) := congrArg String.data he
  exact String.ext (List.append_eq_nil.mp hd).1

theorem joinSegs_singleton (sep s : String) : joinSegs sep [s] = s := by
  rw [joinSegs]

theorem joinSegs_cons_cons (sep a b : String) (t : List String) :
    joinSegs sep (a :: b :: t) = a ++ sep ++ joinSegs sep (b :: t) := by
  rw [joinSegs]
  intro h
  exact List.noConfusion h

theorem joinSegs_ne_empty (sep : String) :
    ∀ (segs : List String), segs ≠ [] → (∀ s ∈ segs, s ≠ "") →
      joinSegs sep segs ≠ "" := by
  intro segs
  match segs with
  | [] => intro h _; exact absurd rfl h
  | [s] =>
    intro _ hs
    rw [joinSegs_singleton]
    exact hs s (List.mem_singleton.mpr rfl)
  | s :: b :: t =>
    intro _ hs
    rw [joinSegs_cons_cons]
    exact str_append_ne_empty _ _
      (str_append_ne_empty _ _ (hs s (List.mem_cons_self _ _)))

theorem joinSegs_concat (sep : String) :
    ∀ (segs : List String) (x : String), (∀ s ∈ segs, s ≠ "") →
      joinSegs sep (segs ++ [x]) = joinPath sep (joinSegs sep segs) x := by
  intro segs
  induction segs with
  | nil =>
    intro x _
    rw [List.nil_append, joinSegs_singleton, joinSegs, joinPath, if_pos rfl]
  | cons a rest ih =>
    intro x hs
    cases rest with
    | nil =>
      rw [List.cons_append, List.nil_append, joinSegs_cons_cons, joinSegs_singleton,
        joinSegs_singleton, joinPath, if_neg (hs a (List.mem_cons_self _ _))]
    | cons b t =>
      have hbt : ∀ s ∈ b :: t, s ≠ "" :=
        fun s hsm => hs s (List.mem_cons.mpr (Or.inr hsm))
      have hne : joinSegs sep (b :: t) ≠ "" :=
        joinSegs_ne_empty sep (b :: t) (by simp) hbt
      have ha : a ≠ "" := hs a (List.mem_cons_self _ _)
      have lhs1 : joinSegs sep ((a :: b :: t) ++ [x]) =
          a ++ sep ++ joinSegs sep ((b :: t) ++ [x]) := by
        rw [List.cons_append]
        exact joinSegs_cons_cons sep a b (t ++ [x])
      have rhs1 : joinSegs sep (a :: b :: t) = a ++ sep ++ joinSegs sep (b :: t) :=
        joinSegs_cons_cons sep a b t
      rw [lhs1, ih x hbt, rhs1, joinPath, joinPath, if_neg hne,
        if_neg (str_append_ne_empty _ _ (str_append_ne_empty _ _ ha))]
      simp [String.append_assoc]

theorem withSegs_mem :
    ∀ (l : List FileNode) (segs : List String) (x : List String × FileNode),
      x ∈ withSegs segs l →
      (∃ n ∈ l, x = (segs, n)) ∨
      (∃ n ∈ l, ∃ cs, n.children = some cs ∧ x ∈ withSegs (segs ++ [n.name]) cs) := by
  intro l
  induction l with
  | nil => intro segs x h; rw [withSegs] at h; simp at h
  | cons hd tl ih =>
    intro segs x h
    cases hd with
    | mk nm p t ch tr tc =>
      cases ch with
      | some cs =>
        rw [withSegs] at h
        rcases List.mem_cons.mp h with h | h
        · exact Or.inl ⟨_, List.mem_cons_self _ _, h⟩
        · rcases List.mem_append.mp h with h | h
          · refine Or.inr ⟨FileNode.mk nm p t (some cs) tr tc,
              List.mem_cons_self _ _, cs, rfl, ?_⟩
            simpa using h
          · rcases ih segs x h with ⟨n, hn, hx⟩ | ⟨n, hn, cs', hcs, hx⟩
            · exact Or.inl ⟨n, List.mem_cons.mpr (Or.inr hn), hx⟩
            · exact Or.inr ⟨n, List.mem_cons.mpr (Or.inr hn), cs', hcs, hx⟩
      | none =>
        rw [withSegs] at h
        rcases List.mem_cons.mp h with h | h
        · exact Or.inl ⟨_, List.mem_cons_self _ _, h⟩
        · rcases ih segs x h with ⟨n, hn, hx⟩ | ⟨n, hn, cs', hcs, hx⟩
          · exact Or.inl ⟨n, List.mem_cons.mpr (Or.inr hn), hx⟩
          · exact Or.inr ⟨n, List.mem_cons.mpr (Or.inr hn), cs', hcs, hx⟩

/-- Auxiliary induction for the scan-root-relative path property: along the
tree, every non-sentinel node's `path` is its ancestor-name chain joined
with the platform separator. -/
theorem scan_segs_aux (cmp : String → String → Int) (sep : String) (limit : Nat) :
    ∀ (k : Nat) (entries : List FSEntry) (r : Bool) (segs : List String),
      sizeOf entries ≤ k → (∀ s ∈ segs, s ≠ "") → (∀ e ∈ entries, GoodNames e) →
      ∀ sn ∈ withSegs segs (scanDirectory cmp sep r entries (joinSegs sep segs) limit),
        sn.2.truncated = none →
        sn.2.path = joinSegs sep (sn.1 ++ [sn.2.name]) := by
  intro k
  induction k with
  | zero =>
    intro entries r segs h
    have := fsentry_list_sizeOf_pos entries
    omega
  | succ k ih =>
    intro entries r segs hk hsegs hgood sn hsn htr
    rcases withSegs_mem _ _ _ hsn with ⟨n, hn, hx⟩ | ⟨n, hn, cs, hcs, hx⟩
    · subst hx
      rcases scanDirectory_mem cmp sep r entries (joinSegs sep segs) limit n hn with
        ⟨e, he, hne⟩ | hne
      · subst hne
        rw [entryNode_path, entryNode_name, joinSegs_concat sep segs e.name hsegs]
      · subst hne
        simp [truncNode] at htr
    · rcases scanDirectory_mem cmp sep r entries (joinSegs sep segs) limit n hn with
        ⟨e, he, hne⟩ | hne
      · subst hne
        cases e with
        | file n =>
          rw [entryNode_file] at hcs
          simp at hcs
        | dir nm r' sub =>
          rw [entryNode_dir] at hcs
          simp only [FileNode.children_mk] at hcs
          by_cases hlen : 0 <
              (scanDirectory cmp sep r' sub (joinPath sep (joinSegs sep segs) nm) limit).length
          · rw [if_pos hlen] at hcs
            have hcs' := (Option.some.inj hcs).symm
            subst hcs'
            have hge : GoodNames (FSEntry.dir nm r' sub) :=
              hgood _ (List.mem_of_mem_filter he)
            have hnm : nm ≠ "" := by cases hge with | dir _ _ _ h _ => exact h
            have hsub : ∀ e ∈ sub, GoodNames e := by
              cases hge with | dir _ _ _ _ h => exact h
            have hsegs' : ∀ s ∈ segs ++ [nm], s ≠ "" := by
              intro s hsm
              rcases List.mem_append.mp hsm with h | h
              · exact hsegs s h
              · rw [List.mem_singleton.mp h]; exact hnm
            have hsz : sizeOf sub ≤ k := by
              have h1 := List.sizeOf_lt_of_mem (List.mem_of_mem_filter he)
              have h2 : sizeOf sub < sizeOf (FSEntry.dir nm r' sub) := by simp
              omega
            have hxpath : joinPath sep (joinSegs sep segs) nm =
                joinSegs sep (segs ++ [nm]) :=
              (joinSegs_concat sep segs nm hsegs).symm
            rw [entryNode_dir, FileNode.name_mk] at hx
            rw [hxpath] at hx
            exact ih sub r' (segs ++ [nm]) hsz hsegs' hsub sn hx htr
          · rw [if_neg hlen] at hcs
            simp at hcs
      · subst hne
        simp [truncNode] at hcs

/-- Every node produced by sorting the per-entry nodes is a real entry node,
hence not truncated. -/
theorem insertionSort_entry_truncated (cmp : String → String → Int) (sep : String)
    (limit : Nat) (bp : String) (entries : List FSEntry) :
    ∀ n ∈ List.insertionSort (nodeLe cmp)
      ((entries.filter keep).map (entryNode cmp sep limit bp)),
      n.truncated = none := by
  intro n hn
  have h2 := (List.perm_insertionSort (nodeLe cmp) _).mem_iff.mp hn
  rcases List.mem_map.mp h2 with ⟨e, _, he⟩
  rw [← he]
  exact entryNode_truncated cmp sep limit bp e

/-- C1: for a directory with `N` filtered entries scanned (successfully)
under limit `L ≥ 1` (the handler clamps the limit into `[1,100]`): if
`N ≤ L` the scan emits exactly `N` child nodes, none of them a sentinel;
if `N > L` it emits exactly `L` nodes, the last being the truncation
sentinel carrying `totalCount = N`, and every earlier node a real
(non-truncated) entry — the real entry at the boundary was dropped to
make room for the sentinel. -/
theorem claim1_level_counts (cmp : String → String → Int) (sep : String)
    (entries : List FSEntry) (bp : String) (limit : Nat) (hL : 1 ≤ limit) :
    ((entries.filter keep).length ≤ limit →
      (scanDirectory cmp sep true entries bp limit).length =
        (entries.filter keep).length ∧
      ∀ n ∈ scanDirectory cmp sep true entries bp limit, n.truncated = none) ∧
    (limit < (entries.filter keep).length →
      (scanDirectory cmp sep true entries bp limit).length = limit ∧
      (scanDirectory cmp sep true entries bp limit).getLast? =
        some (truncNode bp (entries.filter keep).length) ∧
      ∀ n ∈ (scanDirectory cmp sep true entries bp limit).dropLast,
        n.truncated = none) := by
  have hmem := insertionSort_entry_truncated cmp sep limit bp entries
  have hlen : (List.insertionSort (nodeLe cmp)
      ((entries.filter keep).map (entryNode cmp sep limit bp))).length =
      (entries.filter keep).length := by
    rw [List.length_insertionSort, List.length_map]
  constructor
  · intro h
    rw [scanDirectory_true, emitNodes_of_le _ _ _ _ 0 (by omega)]
    exact ⟨hlen, hmem⟩
  · intro h
    rw [scanDirectory_true, emitNodes_of_lt _ _ _ _ 0 (by omega) (by omega)]
    refine ⟨?_, ?_, ?_⟩
    · rw [List.length_append, List.length_take, hlen]
      simp
      omega
    · rw [List.getLast?_concat]
    · rw [List.dropLast_concat]
      intro n hn
      exact hmem n (List.take_subset _ _ hn)

/-- C1 witness: three plain files under limit 2 give 2 nodes ending in the
sentinel with `totalCount = 3`; under limit 20 all 3 nodes appear. -/
theorem claim1_witness :
    (scanDirectory cmp0 "/" true
      [FSEntry.file "a", FSEntry.file "b", FSEntry.file "c"] "" 2).length = 2 ∧
    (scanDirectory cmp0 "/" true
      [FSEntry.file "a", FSEntry.file "b", FSEntry.file "c"] "" 2).getLast? =
      some (truncNode "" 3) ∧
    (scanDirectory cmp0 "/" true
      [FSEntry.file "a", FSEntry.file "b", FSEntry.file "c"] "" 20).length = 3 := by
  have hf : ([FSEntry.file "a", FSEntry.file "b", FSEntry.file "c"].filter keep).length
      = 3 := by decide
  have h1 := claim1_level_counts cmp0 "/"
    [FSEntry.file "a", FSEntry.file "b", FSEntry.file "c"] "" 2 (by omega)
  have h2 := claim1_level_counts cmp0 "/"
    [FSEntry.file "a", FSEntry.file "b", FSEntry.file "c"] "" 20 (by omega)
  have hb1 := h1.2 (by omega)
  have hb2 := h2.1 (by omega)
  rw [hf] at hb1 hb2
  exact ⟨hb1.1, hb1.2.1, hb2.1⟩

/-- C2 counterexample: the claim says input `0` resolves to `1`, but `0` is
falsy in `parseInt(fileLimit) || 20`, so the code resolves it to the
default `20`. -/
theorem claim2_counterexample :
    appliedFileLimit (JSVal.num 0) = 20 ∧ appliedFileLimit (JSVal.num 0) ≠ 1 := by
  constructor <;> decide

/-- C2 (amended): the applied limit is always in `[1,100]` and never errors;
`-5` resolves to `1`, `"abc"` to `20`, `500` to `100`, an absent field to
`20`; but `0` resolves to the default `20` (not `1`), because `0` is falsy
in `parseInt(fileLimit) || 20`.  The success response reports the applied
value in its `fileLimit` field. -/
theorem claim2_limit_clamping :
    (∀ v : JSVal, 1 ≤ appliedFileLimit v ∧ appliedFileLimit v ≤ 100) ∧
    appliedFileLimit (JSVal.num (-5)) = 1 ∧
    appliedFileLimit (JSVal.str "abc") = 20 ∧
    appliedFileLimit (JSVal.num 500) = 100 ∧
    appliedFileLimit JSVal.absent = 20 ∧
    appliedFileLimit (JSVal.num 0) = 20 ∧
    (∀ (cmp : String → String → Int) (sep cwd : String)
       (resolve : String → String) (stat : String → StatResult) (r : Bool)
       (es : List FSEntry) (p : String) (fl : JSVal),
       p ≠ "" → isAllowedPosix cwd (resolve p) = true →
       stat (resolve p) = StatResult.directory →
       POST cmp sep cwd resolve stat r es (some p) fl =
         ScanOutcome.ok
           (scanDirectory cmp sep r es "" (appliedFileLimit fl).toNat)
           (resolve p)
           (countNodes (scanDirectory cmp sep r es "" (appliedFileLimit fl).toNat))
           (appliedFileLimit fl)) := by
  refine ⟨?_, by decide, by decide, by decide, by decide, by decide, ?_⟩
  · intro v
    cases v with
    | num n =>
      simp only [appliedFileLimit]
      by_cases hn : n = 0 <;> simp [hn] <;> omega
    | str s =>
      simp only [appliedFileLimit]
      cases h : jsParseInt s with
      | none => simp [h]
      | some n =>
        simp only [h]
        by_cases hn : n = 0 <;> simp [hn] <;> omega
    | absent =>
      simp only [appliedFileLimit]
      omega
  · intro cmp sep cwd resolve stat r es p fl hp hal hstat
    simp [POST, hp, hal, hstat]

/-- C2 witness: a directory-stat success with `fileLimit = 0` and an
unreadable root returns `ok` with the applied limit reported as `20`. -/
theorem claim2_witness :
    POST cmp0 "/" "/app" (fun s => s) (fun _ => StatResult.directory) false []
        (some "/tmp/x") (JSVal.num 0) = ScanOutcome.ok [] "/tmp/x" 0 20 := by
  have h := claim2_limit_clamping.2.2.2.2.2.2 cmp0 "/" "/app" (fun s => s)
    (fun _ => StatResult.directory) false [] "/tmp/x" (JSVal.num 0)
    (by decide) (by decide) rfl
  have ha : appliedFileLimit (JSVal.num 0) = 20 := by decide
  rw [ha] at h
  rw [h, scanDirectory_false]
  norm_num [countNodes]

/-- C7: top-level failures map one-to-one onto the taxonomy, checked in
order: a missing or empty path is `invalidInput`; a resolved path failing
the POSIX allow-list is `accessDenied` for *every* stat outcome (the
authorization check precedes the stat, so even a nonexistent path is
denied first); an allowed but absent path is `notFound`; an allowed path
that is a plain file is `notADirectory`.  None of the failure outcomes
carries a tree (`ScanOutcome` gives a tree only to `ok`). -/
theorem claim7_error_taxonomy (cmp : String → String → Int) (sep cwd : String)
    (resolve : String → String) (stat : String → StatResult) (r : Bool)
    (es : List FSEntry) (fl : JSVal) :
    POST cmp sep cwd resolve stat r es none fl = ScanOutcome.invalidInput ∧
    POST cmp sep cwd resolve stat r es (some "") fl = ScanOutcome.invalidInput ∧
    (∀ p, p ≠ "" → isAllowedPosix cwd (resolve p) = false →
      POST cmp sep cwd resolve stat r es (some p) fl = ScanOutcome.accessDenied) ∧
    (∀ p, p ≠ "" → isAllowedPosix cwd (resolve p) = true →
      stat (resolve p) = StatResult.missing →
      POST cmp sep cwd resolve stat r es (some p) fl = ScanOutcome.notFound) ∧
    (∀ p, p ≠ "" → isAllowedPosix cwd (resolve p) = true →
      stat (resolve p) = StatResult.file →
      POST cmp sep cwd resolve stat r es (some p) fl = ScanOutcome.notADirectory) := by
  refine ⟨rfl, by simp [POST], ?_, ?_, ?_⟩
  · intro p hp hal
    simp [POST, hp, hal]
  · intro p hp hal hstat
    simp [POST, hp, hal, hstat]
  · intro p hp hal hstat
    simp [POST, hp, hal, hstat]

/-- C7 witness: with working directory `/app` and identity resolution, a
missing path is rejected as invalid input, `/etc` is denied before any
stat, a missing `/app/x` is not found, and a file at `/app/x` is rejected
as not a directory. -/
theorem claim7_witness :
    POST cmp0 "/" "/app" (fun s => s) (fun _ => StatResult.missing) true []
      none (JSVal.num 20) = ScanOutcome.invalidInput ∧
    POST cmp0 "/" "/app" (fun s => s) (fun _ => StatResult.missing) true []
      (some "/etc") (JSVal.num 20) = ScanOutcome.accessDenied ∧
    POST cmp0 "/" "/app" (fun s => s) (fun _ => StatResult.missing) true []
      (some "/app/x") (JSVal.num 20) = ScanOutcome.notFound ∧
    POST cmp0 "/" "/app" (fun s => s) (fun _ => StatResult.file) true []
      (some "/app/x") (JSVal.num 20) = ScanOutcome.notADirectory := by
  have h1 := claim7_error_taxonomy cmp0 "/" "/app" (fun s => s)
    (fun _ => StatResult.missing) true [] (JSVal.num 20)
  have h2 := claim7_error_taxonomy cmp0 "/" "/app" (fun s => s)
    (fun _ => StatResult.file) true [] (JSVal.num 20)
  exact ⟨h1.1,
    h1.2.2.1 "/etc" (by decide) (by decide),
    h1.2.2.2.1 "/app/x" (by decide) (by decide) rfl,
    h2.2.2.2.2 "/app/x" (by decide) (by decide) rfl⟩

/-- C10: the scanner is total over filesystem outcomes — a failing listing
(even of the authorized scan root itself, after the stat said it is a
directory) yields the empty node list rather than an error, so the request
still succeeds with an empty structure and count 0.  In this embedding
`scanDirectory` is a total function into `List FileNode`: no error value
exists for it to propagate, mirroring the source where the whole body is
wrapped in a catch-all returning `[]` (which makes the `catch` around the
recursive call unreachable). -/
theorem claim10_scan_never_fails (cmp : String → String → Int) (sep : String) :
    (∀ (entries : List FSEntry) (bp : String) (limit : Nat),
      scanDirectory cmp sep false entries bp limit = []) ∧
    (∀ (cwd : String) (resolve : String → String) (stat : String → StatResult)
       (es : List FSEntry) (p : String) (fl : JSVal),
       p ≠ "" → isAllowedPosix cwd (resolve p) = true →
       stat (resolve p) = StatResult.directory →
       POST cmp sep cwd resolve stat false es (some p) fl =
         ScanOutcome.ok [] (resolve p) 0 (appliedFileLimit fl)) := by
  constructor
  · intro entries bp limit
    exact scanDirectory_false cmp sep entries bp limit
  · intro cwd resolve stat es p fl hp hal hstat
    simp [POST, hp, hal, hstat, scanDirectory_false, countNodes]

/-- C10 witness: an unreadable root under an accepting stat yields the
empty scan and a successful response with count 0. -/
theorem claim10_witness :
    scanDirectory cmp0 "/" false [FSEntry.file "a"] "" 20 = [] ∧
    POST cmp0 "/" "/app" (fun s => s) (fun _ => StatResult.directory) false
      [FSEntry.file "a"] (some "/tmp/z") (JSVal.num 20) =
      ScanOutcome.ok [] "/tmp/z" 0 20 := by
  have h := claim10_scan_never_fails cmp0 "/"
  refine ⟨h.1 [FSEntry.file "a"] "" 20, ?_⟩
  have h2 := h.2 "/app" (fun s => s) (fun _ => StatResult.directory)
    [FSEntry.file "a"] "/tmp/z" (JSVal.num 20) (by decide) (by decide) rfl
  have ha : appliedFileLimit (JSVal.num 20) = 20 := by decide
  rw [ha] at h2
  exact h2

/-- C3 counterexample: with two files under limit 1 the scan emits the
truncation sentinel, a TreeNode whose name `"..."` begins with `'.'` —
so it is false that no TreeNode of a scanned tree has a name beginning
with a dot. -/
theorem claim3_counterexample :
    (scanDirectory cmp0 "/" true [FSEntry.file "a", FSEntry.file "b"] "" 1).map
      FileNode.name = ["..."] ∧
    strStartsWith "..." "." = true := by
  constructor
  · rw [scanDirectory_true]
    have ka : keep (FSEntry.file "a") = true := by decide
    have kb : keep (FSEntry.file "b") = true := by decide
    simp [List.filter, ka, kb, entryNode_file, joinPath, List.insertionSort,
      List.orderedInsert, nodeLe, nodeCompare, cmp0, emitNodes, truncNode]
  · decide

/-- C3 (amended): at every depth, every node other than the truncation
sentinel has a name that does not begin with `'.'`, is not
`"node_modules"` and is not `".git"`; and an entry failing the filter
contributes nothing whatsoever to the output — removing it leaves the
scan unchanged, so filtered entries never appear and never count toward
any sentinel's `totalCount`.  (The sentinel itself is named `"..."`,
which does begin with `'.'`.) -/
theorem claim3_filtered_names (cmp : String → String → Int) (sep : String)
    (limit : Nat) :
    (∀ (entries : List FSEntry) (r : Bool) (bp : String),
      ∀ pn ∈ withParents bp (scanDirectory cmp sep r entries bp limit),
        pn.2.truncated = none →
        strStartsWith pn.2.name "." = false ∧ pn.2.name ≠ "node_modules" ∧
        pn.2.name ≠ ".git") ∧
    (∀ (l₁ l₂ : List FSEntry) (e : FSEntry) (r : Bool) (bp : String),
      keep e = false →
      scanDirectory cmp sep r (l₁ ++ e :: l₂) bp limit =
        scanDirectory cmp sep r (l₁ ++ l₂) bp limit) := by
  constructor
  · intro entries r bp pn hpn htr
    have hf := scan_nodeFact cmp sep limit (sizeOf entries) entries r bp le_rfl pn hpn
    rcases hf.1 with ⟨_, hk, _⟩ | ⟨hs, _⟩
    · simp only [keepName, Bool.not_eq_true', Bool.or_eq_false_iff,
        beq_eq_false_iff_ne] at hk
      exact ⟨hk.1.1, hk.1.2, hk.2⟩
    · rw [htr] at hs
      exact Option.noConfusion hs
  · intro l₁ l₂ e r bp hke
    cases r with
    | false => rw [scanDirectory_false, scanDirectory_false]
    | true =>
      rw [scanDirectory_true, scanDirectory_true]
      have hfe : (l₁ ++ e :: l₂).filter keep = (l₁ ++ l₂).filter keep := by
        rw [List.filter_append, List.filter_append, List.filter_cons, hke]
        simp
      rw [hfe]

/-- C3 witness: a surviving file named `"x"` satisfies the name conditions,
and deleting a hidden entry `".env"` from a listing leaves the scan
unchanged. -/
theorem claim3_witness :
    (strStartsWith "x" "." = false ∧ "x" ≠ "node_modules" ∧ "x" ≠ ".git") ∧
    scanDirectory cmp0 "/" true [FSEntry.file ".env", FSEntry.file "a"] "" 20 =
      scanDirectory cmp0 "/" true [FSEntry.file "a"] "" 20 := by
  constructor
  · have hscan : scanDirectory cmp0 "/" true [FSEntry.file "x"] "" 20 =
        [FileNode.mk "x" "x" NodeType.file none none none] := by
      rw [scanDirectory_true]
      have kx : keep (FSEntry.file "x") = true := by decide
      simp [List.filter, kx, entryNode_file, joinPath, List.insertionSort,
        List.orderedInsert, emitNodes]
    have hmem : ((""), FileNode.mk "x" "x" NodeType.file none none none) ∈
        withParents "" (scanDirectory cmp0 "/" true [FSEntry.file "x"] "" 20) := by
      rw [hscan, withParents]
      simp [withParents]
    exact (claim3_filtered_names cmp0 "/" 20).1 [FSEntry.file "x"] true ""
      ("", FileNode.mk "x" "x" NodeType.file none none none) hmem rfl
  · have h := (claim3_filtered_names cmp0 "/" 20).2 [] [FSEntry.file "a"]
      (FSEntry.file ".env") true "" (by decide)
    simpa using h

/-- C5 counterexample: scan a directory `d` holding two files under limit
1.  The sentinel inside `d` is a non-root TreeNode whose `path` is
`"d..."`, the parent path with `"..."` concatenated directly — not the
parent path joined with its name through a separator (`"d/..."`). -/
theorem claim5_counterexample :
    scanDirectory cmp0 "/" true
      [FSEntry.dir "d" true [FSEntry.file "a", FSEntry.file "b"]] "" 1 =
      [FileNode.mk "d" "d" NodeType.folder (some [truncNode "d" 2]) none none] ∧
    (truncNode "d" 2).path = "d..." ∧
    (truncNode "d" 2).name = "..." ∧
    "d..." ≠ "d" ++ "/" ++ "..." := by
  have ka : keep (FSEntry.file "a") = true := by decide
  have kb : keep (FSEntry.file "b") = true := by decide
  have hinner : scanDirectory cmp0 "/" true
      [FSEntry.file "a", FSEntry.file "b"] "d" 1 = [truncNode "d" 2] := by
    rw [scanDirectory_true]
    simp [List.filter, ka, kb, entryNode_file, joinPath, List.insertionSort,
      List.orderedInsert, nodeLe, nodeCompare, cmp0, emitNodes]
  refine ⟨?_, rfl, rfl, by decide⟩
  rw [scanDirectory_true]
  have kd : keep (FSEntry.dir "d" true [FSEntry.file "a", FSEntry.file "b"]) =
      true := by decide
  have hd : entryNode cmp0 "/" 1 ""
      (FSEntry.dir "d" true [FSEntry.file "a", FSEntry.file "b"]) =
      FileNode.mk "d" "d" NodeType.folder (some [truncNode "d" 2]) none none := by
    rw [entryNode_dir]
    have hj : joinPath "/" "" "d" = "d" := by simp [joinPath]
    rw [hj, hinner]
    simp
  simp [List.filter, kd, hd, List.insertionSort, List.orderedInsert, emitNodes]

/-- C5 (amended): within every scan, a non-sentinel node's `path` is the
base path of its level (the parent node's `path`; empty at the root)
joined with the node's own `name` through the platform separator — so a
root-level node's path is its name; a sentinel's `path` is instead the
base path with `"..."` appended directly, without a separator. -/
theorem claim5_path_join (cmp : String → String → Int) (sep : String)
    (limit : Nat) (entries : List FSEntry) (r : Bool) (bp : String) :
    ∀ pn ∈ withParents bp (scanDirectory cmp sep r entries bp limit),
      (pn.2.truncated = none → pn.2.path = joinPath sep pn.1 pn.2.name) ∧
      (pn.2.truncated = some true → pn.2.path = pn.1 ++ "...") := by
  intro pn hpn
  have hf := scan_nodeFact cmp sep limit (sizeOf entries) entries r bp le_rfl pn hpn
  constructor
  · intro htr
    rcases hf.1 with ⟨_, _, hp⟩ | ⟨hs, _⟩
    · exact hp
    · rw [htr] at hs
      exact Option.noConfusion hs
  · intro htr
    rcases hf.1 with ⟨hn, _, _⟩ | ⟨_, _, _, _, hp⟩
    · rw [htr] at hn
      exact Option.noConfusion hn
    · exact hp

/-- C5 witness: in the nested example, the folder node `d` at the root has
path equal to its name, and the sentinel below it has path `"d" ++ "..."`. -/
theorem claim5_witness :
    (FileNode.mk "d" "d" NodeType.folder (some [truncNode "d" 2]) none none).path =
      joinPath "/" ""
        (FileNode.mk "d" "d" NodeType.folder (some [truncNode "d" 2]) none none).name ∧
    (truncNode "d" 2).path = "d" ++ "..." := by
  have ka : keep (FSEntry.file "a") = true := by decide
  have kb : keep (FSEntry.file "b") = true := by decide
  have hinner : scanDirectory cmp0 "/" true
      [FSEntry.file "a", FSEntry.file "b"] "d" 1 = [truncNode "d" 2] := by
    rw [scanDirectory_true]
    simp [List.filter, ka, kb, entryNode_file, joinPath, List.insertionSort,
      List.orderedInsert, nodeLe, nodeCompare, cmp0, emitNodes]
  have hscan : scanDirectory cmp0 "/" true
      [FSEntry.dir "d" true [FSEntry.file "a", FSEntry.file "b"]] "" 1 =
      [FileNode.mk "d" "d" NodeType.folder (some [truncNode "d" 2]) none none] := by
    rw [scanDirectory_true]
    have kd : keep (FSEntry.dir "d" true [FSEntry.file "a", FSEntry.file "b"]) =
        true := by decide
    have hd : entryNode cmp0 "/" 1 ""
        (FSEntry.dir "d" true [FSEntry.file "a", FSEntry.file "b"]) =
        FileNode.mk "d" "d" NodeType.folder (some [truncNode "d" 2]) none none := by
      rw [entryNode_dir]
      have hj : joinPath "/" "" "d" = "d" := by simp [joinPath]
      rw [hj, hinner]
      simp
    simp [List.filter, kd, hd, List.insertionSort, List.orderedInsert, emitNodes]
  have hm1 : ("", FileNode.mk "d" "d" NodeType.folder (some [truncNode "d" 2]) none none) ∈
      withParents "" (scanDirectory cmp0 "/" true
        [FSEntry.dir "d" true [FSEntry.file "a", FSEntry.file "b"]] "" 1) := by
    rw [hscan]
    simp [withParents, truncNode]
  have hm2 : (("d" : String), truncNode "d" 2) ∈
      withParents "" (scanDirectory cmp0 "/" true
        [FSEntry.dir "d" true [FSEntry.file "a", FSEntry.file "b"]] "" 1) := by
    rw [hscan]
    simp [withParents, truncNode]
  constructor
  · exact (claim5_path_join cmp0 "/" 1
      [FSEntry.dir "d" true [FSEntry.file "a", FSEntry.file "b"]] true "" _ hm1).1 rfl
  · exact (claim5_path_join cmp0 "/" 1
      [FSEntry.dir "d" true [FSEntry.file "a", FSEntry.file "b"]] true "" _ hm2).2 rfl

/-- C9: every truncation sentinel emitted anywhere in a scan has type
`folder`, name `"..."`, no `children` field, and its `path` is the level's
base-path prefix concatenated directly with `"..."`, with no intervening
path separator. -/
theorem claim9_sentinel_shape (cmp : String → String → Int) (sep : String)
    (limit : Nat) (entries : List FSEntry) (r : Bool) (bp : String) :
    ∀ pn ∈ withParents bp (scanDirectory cmp sep r entries bp limit),
      pn.2.truncated = some true →
      pn.2.type = NodeType.folder ∧ pn.2.name = "..." ∧ pn.2.children = none ∧
      pn.2.path = pn.1 ++ "..." := by
  intro pn hpn htr
  have hf := scan_nodeFact cmp sep limit (sizeOf entries) entries r bp le_rfl pn hpn
  rcases hf.1 with ⟨hn, _, _⟩ | ⟨_, hname, htype, hch, hp⟩
  · rw [htr] at hn
    exact Option.noConfusion hn
  · exact ⟨htype, hname, hch, hp⟩

/-- C9 witness: in the nested example the sentinel under `d` is
folder-typed, named `"..."`, childless, and its path is `"d" ++ "..."`. -/
theorem claim9_witness :
    (truncNode "d" 2).type = NodeType.folder ∧ (truncNode "d" 2).name = "..." ∧
    (truncNode "d" 2).children = none ∧ (truncNode "d" 2).path = "d" ++ "..." := by
  have ka : keep (FSEntry.file "a") = true := by decide
  have kb : keep (FSEntry.file "b") = true := by decide
  have hinner : scanDirectory cmp0 "/" true
      [FSEntry.file "a", FSEntry.file "b"] "d" 1 = [truncNode "d" 2] := by
    rw [scanDirectory_true]
    simp [List.filter, ka, kb, entryNode_file, joinPath, List.insertionSort,
      List.orderedInsert, nodeLe, nodeCompare, cmp0, emitNodes]
  have hscan : scanDirectory cmp0 "/" true
      [FSEntry.dir "d" true [FSEntry.file "a", FSEntry.file "b"]] "" 1 =
      [FileNode.mk "d" "d" NodeType.folder (some [truncNode "d" 2]) none none] := by
    rw [scanDirectory_true]
    have kd : keep (FSEntry.dir "d" true [FSEntry.file "a", FSEntry.file "b"]) =
        true := by decide
    have hd : entryNode cmp0 "/" 1 ""
        (FSEntry.dir "d" true [FSEntry.file "a", FSEntry.file "b"]) =
        FileNode.mk "d" "d" NodeType.folder (some [truncNode "d" 2]) none none := by
      rw [entryNode_dir]
      have hj : joinPath "/" "" "d" = "d" := by simp [joinPath]
      rw [hj, hinner]
      simp
    simp [List.filter, kd, hd, List.insertionSort, List.orderedInsert, emitNodes]
  have hm2 : (("d" : String), truncNode "d" 2) ∈
      withParents "" (scanDirectory cmp0 "/" true
        [FSEntry.dir "d" true [FSEntry.file "a", FSEntry.file "b"]] "" 1) := by
    rw [hscan]
    simp [withParents, truncNode]
  exact claim9_sentinel_shape cmp0 "/" 1
    [FSEntry.dir "d" true [FSEntry.file "a", FSEntry.file "b"]] true "" _ hm2 rfl

/-- C4 counterexample: three plain files under limit 2 produce the sibling
sequence `[file "a", sentinel]` whose node kinds are `[file, folder]` — a
folder-kind node (the sentinel) comes *after* a file-kind node, so it is
false that in every emitted sibling sequence every folder-kind node
precedes every file-kind node. -/
theorem claim4_counterexample :
    (scanDirectory cmp0 "/" true
      [FSEntry.file "a", FSEntry.file "b", FSEntry.file "c"] "" 2).map
      FileNode.type = [NodeType.file, NodeType.folder] := by
  rw [scanDirectory_true]
  have ka : keep (FSEntry.file "a") = true := by decide
  have kb : keep (FSEntry.file "b") = true := by decide
  have kc : keep (FSEntry.file "c") = true := by decide
  simp [List.filter, ka, kb, kc, entryNode_file, joinPath, List.insertionSort,
    List.orderedInsert, nodeLe, nodeCompare, cmp0, emitNodes, truncNode]

/-- C4 (amended): whenever the name comparison is consistent (total and
transitive, as `localeCompare` is), every emitted sibling sequence — the
top level of any scan as well as every `children` list within it — is,
once the truncation sentinel is set aside, sorted by the source's
comparator relation: folder-kind nodes precede file-kind nodes and,
within a kind, names are in comparator order.  The folder-typed sentinel
itself can only occur as the final element of a sibling sequence.  The
scanner is a pure function of the listing, so repeated scans agree. -/
theorem claim4_sibling_order (cmp : String → String → Int) (sep : String)
    (htot : ∀ a b, cmp a b ≤ 0 ∨ cmp b a ≤ 0)
    (htrans : ∀ a b c, cmp a b ≤ 0 → cmp b c ≤ 0 → cmp a c ≤ 0)
    (limit : Nat) (entries : List FSEntry) (r : Bool) (bp : String) :
    List.Pairwise (nodeLe cmp)
      ((scanDirectory cmp sep r entries bp limit).filter
        (fun n => n.truncated.isNone)) ∧
    (∀ pn ∈ withParents bp (scanDirectory cmp sep r entries bp limit),
      ∀ cs, pn.2.children = some cs →
        List.Pairwise (nodeLe cmp) (cs.filter (fun n => n.truncated.isNone))) ∧
    (∀ n ∈ scanDirectory cmp sep r entries bp limit, n.truncated = some true →
      (scanDirectory cmp sep r entries bp limit).getLast? = some n) ∧
    scanDirectory cmp sep r entries bp limit =
      scanDirectory cmp sep r entries bp limit := by
  refine ⟨scan_filter_sorted cmp sep htot htrans r entries bp limit, ?_, ?_, rfl⟩
  · intro pn hpn cs hcs
    have hf := scan_nodeFact cmp sep limit (sizeOf entries) entries r bp le_rfl pn hpn
    rcases hf.2 cs hcs with ⟨es, r', heq⟩
    rw [heq]
    exact scan_filter_sorted cmp sep htot htrans r' es pn.2.path limit
  · intro n hn htr
    cases r with
    | false =>
      rw [scanDirectory_false] at hn
      exact absurd hn (List.not_mem_nil n)
    | true =>
      rw [scanDirectory_true] at hn ⊢
      have hmem := insertionSort_entry_truncated cmp sep limit bp entries
      rcases emitNodes_shape bp ((entries.filter keep).length) limit _ 0 with h | ⟨j, h⟩
      · rw [h] at hn
        rw [hmem n hn] at htr
        exact Option.noConfusion htr
      · rw [h] at hn ⊢
        rcases List.mem_append.mp hn with h2 | h2
        · rw [hmem n (List.take_subset _ _ h2)] at htr
          exact Option.noConfusion htr
        · rw [List.mem_singleton.mp h2, List.getLast?_concat]

/-- C4 witness: with the all-ties comparator (consistent: total and
transitive) on one folder and one file, the emitted sequence keeps the
folder strictly before the file, giving the pairwise order on the
non-sentinel nodes. -/
theorem claim4_witness :
    List.Pairwise (nodeLe cmp0)
      ((scanDirectory cmp0 "/" true
        [FSEntry.file "a", FSEntry.dir "d" true []] "" 20).filter
        (fun n => n.truncated.isNone)) := by
  exact (claim4_sibling_order cmp0 "/"
    (fun a b => Or.inl (by simp [cmp0]))
    (fun a b c h1 h2 => by simp [cmp0])
    20 [FSEntry.file "a", FSEntry.dir "d" true []] true "").1

/-- C8: a sub-directory whose listing fails during recursion is still
emitted as a folder node with the `children` field absent (not an empty
list) — its recursive scan returns `[]`, so `children.length > 0` fails
and the field stays `undefined` — while the rest of the level is scanned;
and whenever the handler reaches the scan, the request succeeds, so a
recursive read failure is never surfaced as a top-level error. -/
theorem claim8_unreadable_subdir (cmp : String → String → Int) (sep : String) :
    (∀ (entries : List FSEntry) (bp : String) (limit : Nat) (nm : String)
       (cs : List FSEntry),
       FSEntry.dir nm false cs ∈ entries →
       keep (FSEntry.dir nm false cs) = true →
       (entries.filter keep).length ≤ limit →
       FileNode.mk nm (joinPath sep bp nm) NodeType.folder none none none ∈
         scanDirectory cmp sep true entries bp limit) ∧
    (∀ (cwd : String) (resolve : String → String) (stat : String → StatResult)
       (r : Bool) (es : List FSEntry) (p : String) (fl : JSVal),
       p ≠ "" → isAllowedPosix cwd (resolve p) = true →
       stat (resolve p) = StatResult.directory →
       ∃ tree cnt, POST cmp sep cwd resolve stat r es (some p) fl =
         ScanOutcome.ok tree (resolve p) cnt (appliedFileLimit fl)) := by
  constructor
  · intro entries bp limit nm cs hm hkeep hlen
    have hef : FSEntry.dir nm false cs ∈ entries.filter keep :=
      List.mem_filter.mpr ⟨hm, hkeep⟩
    have hnode : entryNode cmp sep limit bp (FSEntry.dir nm false cs) =
        FileNode.mk nm (joinPath sep bp nm) NodeType.folder none none none := by
      rw [entryNode_dir, scanDirectory_false]
      simp
    have hmap : FileNode.mk nm (joinPath sep bp nm) NodeType.folder none none none ∈
        (entries.filter keep).map (entryNode cmp sep limit bp) := by
      rw [← hnode]
      exact List.mem_map_of_mem _ hef
    have hsort : FileNode.mk nm (joinPath sep bp nm) NodeType.folder none none none ∈
        List.insertionSort (nodeLe cmp)
          ((entries.filter keep).map (entryNode cmp sep limit bp)) :=
      (List.perm_insertionSort (nodeLe cmp) _).mem_iff.mpr hmap
    have hslen : (List.insertionSort (nodeLe cmp)
        ((entries.filter keep).map (entryNode cmp sep limit bp))).length =
        (entries.filter keep).length := by
      rw [List.length_insertionSort, List.length_map]
    rw [scanDirectory_true, emitNodes_of_le _ _ _ _ 0 (by omega)]
    exact hsort
  · intro cwd resolve stat r es p fl hp hal hstat
    have h : POST cmp sep cwd resolve stat r es (some p) fl =
        ScanOutcome.ok (scanDirectory cmp sep r es "" (appliedFileLimit fl).toNat)
          (resolve p)
          (countNodes (scanDirectory cmp sep r es "" (appliedFileLimit fl).toNat))
          (appliedFileLimit fl) := by
      simp [POST, hp, hal, hstat]
    exact ⟨_, _, h⟩

/-- C8 witness: a level holding an unreadable directory `u` and a file `a`
emits `u` as a childless folder node, and the request as a whole
succeeds. -/
theorem claim8_witness :
    FileNode.mk "u" "u" NodeType.folder none none none ∈
      scanDirectory cmp0 "/" true [FSEntry.dir "u" false [], FSEntry.file "a"] "" 20 ∧
    ∃ tree cnt, POST cmp0 "/" "/app" (fun s => s)
      (fun _ => StatResult.directory) true
      [FSEntry.dir "u" false [], FSEntry.file "a"] (some "/tmp/w") (JSVal.num 20) =
      ScanOutcome.ok tree "/tmp/w" cnt (appliedFileLimit (JSVal.num 20)) := by
  constructor
  · have h := (claim8_unreadable_subdir cmp0 "/").1
      [FSEntry.dir "u" false [], FSEntry.file "a"] "" 20 "u" []
      (List.mem_cons_self _ _) (by decide) (by decide)
    simpa [joinPath] using h
  · exact (claim8_unreadable_subdir cmp0 "/").2 "/app" (fun s => s)
      (fun _ => StatResult.directory) true
      [FSEntry.dir "u" false [], FSEntry.file "a"] "/tmp/w" (JSVal.num 20)
      (by decide) (by decide) rfl

/-- C6 counterexample: with the Windows separator `"\\"` (the value
`path.join` uses on that platform) the nested file's path is `"d\a"`,
not the forward-slash-joined `"d/a"` — so paths are *not* forward-slash
joined regardless of the host platform's separator convention. -/
theorem claim6_counterexample :
    scanDirectory cmp0 "\\" true [FSEntry.dir "d" true [FSEntry.file "a"]] "" 20 =
      [FileNode.mk "d" "d" NodeType.folder
        (some [FileNode.mk "a" "d\\a" NodeType.file none none none]) none none] ∧
    "d\\a" ≠ "d/a" := by
  have ka : keep (FSEntry.file "a") = true := by decide
  have hj : joinPath "\\" "d" "a" = "d\\a" := by decide
  have hinner : scanDirectory cmp0 "\\" true [FSEntry.file "a"] "d" 20 =
      [FileNode.mk "a" "d\\a" NodeType.file none none none] := by
    rw [scanDirectory_true]
    simp [List.filter, ka, entryNode_file, hj, List.insertionSort,
      List.orderedInsert, emitNodes]
  refine ⟨?_, by decide⟩
  rw [scanDirectory_true]
  have kd : keep (FSEntry.dir "d" true [FSEntry.file "a"]) = true := by decide
  have hd : entryNode cmp0 "\\" 20 "" (FSEntry.dir "d" true [FSEntry.file "a"]) =
      FileNode.mk "d" "d" NodeType.folder
        (some [FileNode.mk "a" "d\\a" NodeType.file none none none]) none none := by
    rw [entryNode_dir]
    have hj0 : joinPath "\\" "" "d" = "d" := by decide
    rw [hj0, hinner]
    simp
  simp [List.filter, kd, hd, List.insertionSort, List.orderedInsert, emitNodes]

/-- C6 (amended): every non-sentinel node's `path` is the scan-root-relative
chain of ancestor names, joined with the *host platform's* separator (the
one `path.join` uses) — forward slashes precisely when the host separator
is `"/"` (POSIX), backslashes on a backslash-convention host (see the
counterexample).  Names from real listings are nonempty (`GoodNames`). -/
theorem claim6_root_relative_paths (cmp : String → String → Int) (sep : String)
    (limit : Nat) (entries : List FSEntry) (r : Bool)
    (hgood : ∀ e ∈ entries, GoodNames e) :
    ∀ sn ∈ withSegs [] (scanDirectory cmp sep r entries "" limit),
      sn.2.truncated = none →
      sn.2.path = joinSegs sep (sn.1 ++ [sn.2.name]) := by
  intro sn hsn htr
  have h0 : joinSegs sep ([] : List String) = "" := by rw [joinSegs]
  have hsn' : sn ∈ withSegs []
      (scanDirectory cmp sep r entries (joinSegs sep []) limit) := by
    rw [h0]
    exact hsn
  exact scan_segs_aux cmp sep limit (sizeOf entries) entries r [] le_rfl
    (fun s hs => absurd hs (List.not_mem_nil s)) hgood sn hsn' htr

/-- C6 witness: on a POSIX host (`sep = "/"`), the nested file of `d` has
path `"d/a"`, the forward-slash join of its ancestor chain with its name. -/
theorem claim6_witness :
    (FileNode.mk "a" "d/a" NodeType.file none none none).path =
      joinSegs "/" (["d"] ++
        [(FileNode.mk "a" "d/a" NodeType.file none none none).name]) := by
  have ka : keep (FSEntry.file "a") = true := by decide
  have hj : joinPath "/" "d" "a" = "d/a" := by decide
  have hinner : scanDirectory cmp0 "/" true [FSEntry.file "a"] "d" 20 =
      [FileNode.mk "a" "d/a" NodeType.file none none none] := by
    rw [scanDirectory_true]
    simp [List.filter, ka, entryNode_file, hj, List.insertionSort,
      List.orderedInsert, emitNodes]
  have hscan : scanDirectory cmp0 "/" true
      [FSEntry.dir "d" true [FSEntry.file "a"]] "" 20 =
      [FileNode.mk "d" "d" NodeType.folder
        (some [FileNode.mk "a" "d/a" NodeType.file none none none]) none none] := by
    rw [scanDirectory_true]
    have kd : keep (FSEntry.dir "d" true [FSEntry.file "a"]) = true := by decide
    have hd : entryNode cmp0 "/" 20 "" (FSEntry.dir "d" true [FSEntry.file "a"]) =
        FileNode.mk "d" "d" NodeType.folder
          (some [FileNode.mk "a" "d/a" NodeType.file none none none]) none none := by
      rw [entryNode_dir]
      have hj0 : joinPath "/" "" "d" = "d" := by decide
      rw [hj0, hinner]
      simp
    simp [List.filter, kd, hd, List.insertionSort, List.orderedInsert, emitNodes]
  have hgood : ∀ e ∈ [FSEntry.dir "d" true [FSEntry.file "a"]], GoodNames e := by
    intro e he
    rw [List.mem_singleton] at he
    subst he
    refine GoodNames.dir "d" true [FSEntry.file "a"] (by decide) ?_
    intro e he
    rw [List.mem_singleton] at he
    subst he
    exact GoodNames.file "a" (by decide)
  have hmem : ((["d"] : List String),
      FileNode.mk "a" "d/a" NodeType.file none none none) ∈
      withSegs [] (scanDirectory cmp0 "/" true
        [FSEntry.dir "d" true [FSEntry.file "a"]] "" 20) := by
    rw [hscan]
    simp [withSegs]
  exact claim6_root_relative_paths cmp0 "/" 20
    [FSEntry.dir "d" true [FSEntry.file "a"]] true hgood _ hmem rfl
